import Mathlib

/-!
# Verification of `commonpp::thread::ThreadPool` (ThreadPool.hpp)

A shallow embedding of the thread-pool header `include/commonpp/thread/ThreadPool.hpp`:
the recurring-timer protocol (`schedule` / `schedule_timer`), the broadcast
submission helpers (`postAll` / `dispatchAll`), and the loop-resolution contract
(`getService`).  The template bodies of `schedule`, `schedule_timer`, `postAll`
and `dispatchAll` are embedded from the header source; the out-of-line body of
`getService` (in ThreadPool.cpp, not available) is modelled from the spec.
-/

namespace Commonpp

/-- Completion status delivered by the reactor to a `deadline_timer::async_wait`
handler (the `boost::system::error_code` argument): success, operation aborted
(the cancellation signal), or any other error carrying a message. -/
inductive WaitResult where
  | ok : WaitResult
  | aborted : WaitResult
  | err : String → WaitResult
deriving DecidableEq, Repr

/-- Status of one scheduled recurring timer.
`armed d` : an `async_wait` is outstanding, with the captured `delay` being
`d` nanoseconds (the handler closure of `schedule_timer` captures `delay`,
`timer` and `callable` by value).
`stopped` : the user callback returned `false`, so `schedule_timer` was not
called again and the protocol ended.
`cancelled` : the wait completed with `operation_aborted` and the handler
returned silently.
`raised m` : the wait completed with a different error and the handler threw
`std::runtime_error(error.message())`, here recorded as the message `m`. -/
inductive TimerStatus where
  | armed : Int → TimerStatus
  | stopped : TimerStatus
  | cancelled : TimerStatus
  | raised : String → TimerStatus
deriving DecidableEq, Repr

/-- State of one recurring timer scheduled through `ThreadPool::schedule`.
`invocations` counts completed user-callback invocations; `loop` is the index
of the `io_service` the `deadline_timer` was constructed with; `resolutions`
counts how many `getService` target resolutions have been performed for this
timer; `callerRef` records whether the `TimerPtr` returned by `schedule` is
still held by the caller; `firedOn` logs, per callback invocation, the loop
the timer was bound to when it fired. -/
structure TimerRun where
  invocations : Nat
  status : TimerStatus
  loop : Nat
  resolutions : Nat
  callerRef : Bool
  firedOn : List Nat
deriving DecidableEq, Repr

/-- Events affecting a scheduled timer: the caller drops the returned
`TimerPtr`, or the pending wait completes with a `WaitResult`. -/
inductive TimerEvent where
  | dropHandle : TimerEvent
  | expire : WaitResult → TimerEvent
deriving DecidableEq, Repr

/-- `std::chrono::duration_cast<std::chrono::milliseconds>(delay).count()`
applied to a delay of `ns` nanoseconds: integer division truncating toward
zero (`Int.tdiv`), exactly as `duration_cast` to a coarser unit behaves. -/
def durationCastMs (ns : Int) : Int := Int.tdiv ns 1000000

/-- Whether a wait handler closure is outstanding.  The lambda passed to
`async_wait` in `schedule_timer` captures the `shared_ptr` `timer` by value,
so an outstanding wait holds one owning reference to the `deadline_timer`. -/
def closureRef (s : TimerRun) : Bool :=
  match s.status with
  | .armed _ => true
  | _ => false

/-- `shared_ptr` use count of the `deadline_timer` object: one reference for
the `TimerPtr` held by the caller, one for the value-captured copy inside the
pending wait's handler closure.  The `deadline_timer` is destroyed (and only
then cancels a pending wait) when this reaches zero. -/
def useCount (s : TimerRun) : Nat :=
  (if s.callerRef then 1 else 0) + (if closureRef s then 1 else 0)

/-- One step of the timer protocol, embedding the handler lambda of
`ThreadPool::schedule_timer` (ThreadPool.hpp lines 134-151) together with the
`shared_ptr` ownership semantics of the returned handle:
* `dropHandle`: the caller's `TimerPtr` is destroyed.  The value-captured
  `timer` copy inside a pending handler closure still owns the
  `deadline_timer`, so nothing else changes: in particular a pending wait is
  not cancelled.
* `expire r` with a wait pending: if `r` is `operation_aborted` the handler
  does `return;` silently; on any other error it throws
  `runtime_error(error.message())`; on success it invokes the user callback
  (via `traits::make_bool_functor`, modelled as `cb : Nat → Bool` giving the
  boolean result of the i-th invocation, constantly `false` for a void or
  non-boolean callable) and, if the result is `true`, calls `schedule_timer`
  again with the same captured `timer` and `delay`.
* `expire r` with no wait pending cannot be delivered by the reactor and
  leaves the state unchanged. -/
def timerStep (cb : Nat → Bool) (s : TimerRun) : TimerEvent → TimerRun
  | .dropHandle => { s with callerRef := false }
  | .expire r =>
    match s.status with
    | .armed d =>
      match r with
      | .aborted => { s with status := .cancelled }
      | .err m => { s with status := .raised m }
      | .ok =>
        if cb s.invocations then
          { s with invocations := s.invocations + 1, status := .armed d,
                   firedOn := s.firedOn ++ [s.loop] }
        else
          { s with invocations := s.invocations + 1, status := .stopped,
                   firedOn := s.firedOn ++ [s.loop] }
    | _ => s

/-- Run the timer protocol over a sequence of events. -/
def timerRun (cb : Nat → Bool) (s : TimerRun) (es : List TimerEvent) : TimerRun :=
  es.foldl (timerStep cb) s

/-- State produced by `ThreadPool::schedule` (ThreadPool.hpp lines 154-165)
once the target has been resolved to loop index `L`: the `deadline_timer` is
constructed on that loop (`make_shared<deadline_timer>(getService(service_id))`,
one single target resolution), the caller receives the owning `TimerPtr`, and
`schedule_timer` arms the first wait for the delay of `delayNs` nanoseconds. -/
def scheduleInit (L : Nat) (delayNs : Int) : TimerRun :=
  { invocations := 0, status := .armed delayNs, loop := L, resolutions := 1,
    callerRef := true, firedOn := [] }

/-- The number of milliseconds the currently pending wait was armed for
(`expires_from_now(milliseconds(duration_cast<milliseconds>(delay).count()))`),
or `none` when no wait is pending. -/
def armedMs (s : TimerRun) : Option Int :=
  match s.status with
  | .armed d => some (durationCastMs d)
  | _ => none

/-- Loop-targeting argument of `post` / `dispatch` / `schedule` / `getService`.
The header passes an `int service_id` mixing real indices with the sentinels of
the anonymous enum (`ROUND_ROBIN = -1`, ...); following spec §9 we embed it as
a sum type.  (`RANDOM_SERVICE` and `CURRENT_SERVICE` are not exercised by any
claim and are not modelled.) -/
inductive LoopTarget where
  | index : Nat → LoopTarget
  | roundRobin : LoopTarget
deriving DecidableEq, Repr

/-- Modelled from the spec: the body of `ThreadPool::getService(int)` (declared
at ThreadPool.hpp line 87) lives in ThreadPool.cpp, which is not among the
available sources.  Per spec §4.1/§4.2: a non-negative index resolves to loop
`i mod nb_services` (`loopAt`, never failing and never out of range), and a
`ROUND_ROBIN` target atomically increments the shared cursor
`current_service_` (line 117) and resolves to `loopAt(cursor)`.  `n` is
`nb_services_` and `c` the cursor; the result is the resolved loop index
paired with the cursor after the call. -/
def getService (n : Nat) (c : Nat) : LoopTarget → Nat × Nat
  | .index i => (i % n, c)
  | .roundRobin => (c % n, c + 1)

/-- Which reactor submission primitive a work item was handed to. -/
inductive Mechanism where
  | viaPost : Mechanism
  | viaDispatch : Mechanism
deriving DecidableEq, Repr

/-- One submitted copy of a work item: the loop it was queued on and the
primitive used.  `viaPost` always defers to the loop's queue; only
`viaDispatch` may run the work inline on the calling thread. -/
structure Submission where
  loop : Nat
  mech : Mechanism
deriving DecidableEq, Repr

/-- `ThreadPool::post` (ThreadPool.hpp lines 68-72):
`getService(service_id).post(callable)`. -/
def post (n : Nat) (c : Nat) (t : LoopTarget) : Submission × Nat :=
  let r := getService n c t
  (⟨r.1, .viaPost⟩, r.2)

/-- `ThreadPool::dispatch` (ThreadPool.hpp lines 74-78):
`getService(service_id).dispatch(callable)`. -/
def dispatch (n : Nat) (c : Nat) (t : LoopTarget) : Submission × Nat :=
  let r := getService n c t
  (⟨r.1, .viaDispatch⟩, r.2)

/-- `ThreadPool::postAll` (ThreadPool.hpp lines 167-174): for each of the
`nb_thread_` iterations, `post(callable)` with the default `ROUND_ROBIN`
target.  `n` is `nb_services_`, `k` the loop bound `nb_thread_`, `c` the
cursor; the result lists the submissions in order with the final cursor. -/
def postAll (n : Nat) : Nat → Nat → List Submission × Nat
  | 0, c => ([], c)
  | k + 1, c =>
    let r := post n c .roundRobin
    let rest := postAll n k r.2
    (r.1 :: rest.1, rest.2)

/-- `ThreadPool::dispatchAll` (ThreadPool.hpp lines 176-183): its body also
calls `post(callable)` (not `dispatch`) once per `nb_thread_` iteration. -/
def dispatchAll (n : Nat) : Nat → Nat → List Submission × Nat
  | 0, c => ([], c)
  | k + 1, c =>
    let r := post n c .roundRobin
    let rest := dispatchAll n k r.2
    (r.1 :: rest.1, rest.2)

/-- `k` consecutive `ROUND_ROBIN` resolutions through `getService`, returning
the chosen loop indices in order together with the final cursor. -/
def rrResolve (n : Nat) : Nat → Nat → List Nat × Nat
  | 0, c => ([], c)
  | k + 1, c =>
    let r := getService n c .roundRobin
    let rest := rrResolve n k r.2
    (r.1 :: rest.1, rest.2)

/-- `ThreadPool::schedule` (ThreadPool.hpp lines 154-165): resolves
`service_id` through `getService` exactly once, constructs the
`deadline_timer` on the resolved loop
(`make_shared<deadline_timer>(getService(service_id))`), arms the first wait
via `schedule_timer` and returns the caller's owning handle. -/
def schedule (n : Nat) (c : Nat) (t : LoopTarget) (delayNs : Int) : TimerRun × Nat :=
  let r := getService n c t
  (scheduleInit r.1 delayNs, r.2)

/-- Modelled from the spec: a thread-to-primary-loop assignment that
`start()` (body in ThreadPool.cpp, not among the available sources) can
produce under the `Random` placement policy — spec §4.2: each thread's
primary loop is drawn independently and uniformly from `[0, nb_services)` —
here the draw mapping every worker thread to loop `0`. -/
def allThreadsOnLoopZero : Nat → Nat := fun _ => 0

/-- Number of times loop `r` is chosen by `i ↦ (c + i) % n` for `i < k`:
the round-robin pick count over `k` resolutions starting at cursor `c`. -/
def rrPickCount (n c r k : Nat) : Nat :=
  ((List.range k).filter (fun i => (c + i) % n == r)).length

theorem timerStep_expire_of_not_armed (cb : Nat → Bool) (r : WaitResult) (s : TimerRun)
    (hs : closureRef s = false) : timerStep cb s (.expire r) = s := by
  cases h : s.status with
  | armed d => simp [closureRef, h] at hs
  | stopped => simp [timerStep, h]
  | cancelled => simp [timerStep, h]
  | raised m => simp [timerStep, h]

theorem timerRun_expire_of_not_armed (cb : Nat → Bool) (r : WaitResult) :
    ∀ (j : Nat) (s : TimerRun), closureRef s = false →
      timerRun cb s (List.replicate j (.expire r)) = s := by
  intro j
  induction j with
  | zero => intro s _; rfl
  | succ j ih =>
    intro s hs
    rw [List.replicate_succ]
    show timerRun cb (timerStep cb s (.expire r)) (List.replicate j (.expire r)) = s
    rw [timerStep_expire_of_not_armed cb r s hs, ih s hs]

theorem timerRun_ok_run (N L : Nat) (D : Int) :
    ∀ (j i : Nat), i ≤ N →
      timerRun (fun n => decide (n < N))
        ⟨i, .armed D, L, 1, true, List.replicate i L⟩
        (List.replicate j (.expire .ok)) =
      ⟨min (i + j) (N + 1), if i + j ≤ N then .armed D else .stopped, L, 1, true,
        List.replicate (min (i + j) (N + 1)) L⟩ := by
  intro j
  induction j with
  | zero =>
    intro i hi
    rw [Nat.min_eq_left (by omega : i + 0 ≤ N + 1), if_pos (by omega : i + 0 ≤ N)]
    rfl
  | succ j ih =>
    intro i hi
    rw [List.replicate_succ]
    show timerRun (fun n => decide (n < N))
        (timerStep (fun n => decide (n < N)) ⟨i, .armed D, L, 1, true, List.replicate i L⟩ (.expire .ok))
        (List.replicate j (.expire .ok)) = _
    by_cases hiN : i < N
    · have hstep : timerStep (fun n => decide (n < N)) ⟨i, .armed D, L, 1, true, List.replicate i L⟩ (.expire .ok)
          = ⟨i + 1, .armed D, L, 1, true, List.replicate (i + 1) L⟩ := by
        simp [timerStep, hiN, List.replicate_succ' i L]
      rw [hstep, ih (i + 1) (by omega)]
      have he : i + 1 + j = i + (j + 1) := by omega
      rw [he]
    · have hstep : timerStep (fun n => decide (n < N)) ⟨i, .armed D, L, 1, true, List.replicate i L⟩ (.expire .ok)
          = ⟨i + 1, .stopped, L, 1, true, List.replicate (i + 1) L⟩ := by
        simp [timerStep, hiN, List.replicate_succ' i L]
      rw [hstep, timerRun_expire_of_not_armed _ _ _ _ (by rfl)]
      have hN : i = N := by omega
      rw [Nat.min_eq_right (by omega : N + 1 ≤ i + (j + 1)), if_neg (by omega : ¬(i + (j + 1) ≤ N)), hN]


theorem timerRun_status_of_not_armed (cb : Nat → Bool) :
    ∀ (es : List TimerEvent) (s : TimerRun), closureRef s = false →
      closureRef (timerRun cb s es) = false := by
  intro es
  induction es with
  | nil => intro s hs; exact hs
  | cons e es ih =>
    intro s hs
    show closureRef (timerRun cb (timerStep cb s e) es) = false
    apply ih
    cases e with
    | dropHandle => simpa [timerStep, closureRef] using hs
    | expire r => rw [timerStep_expire_of_not_armed cb r s hs]; exact hs

theorem timerRun_cons (cb : Nat → Bool) (s : TimerRun) (e : TimerEvent) (es : List TimerEvent) :
    timerRun cb s (e :: es) = timerRun cb (timerStep cb s e) es := rfl

theorem timerRun_armed_delay (cb : Nat → Bool) :
    ∀ (es : List TimerEvent) (s : TimerRun) (d : Int), s.status = .armed d →
      (timerRun cb s es).status = .armed d ∨ closureRef (timerRun cb s es) = false := by
  intro es
  induction es with
  | nil => intro s d hs; exact Or.inl hs
  | cons e es ih =>
    intro s d hs
    rw [timerRun_cons]
    cases e with
    | dropHandle =>
      exact ih { s with callerRef := false } d (by simpa [timerStep] using hs)
    | expire r =>
      cases r with
      | aborted =>
        right
        apply timerRun_status_of_not_armed
        simp [timerStep, hs, closureRef]
      | err m =>
        right
        apply timerRun_status_of_not_armed
        simp [timerStep, hs, closureRef]
      | ok =>
        by_cases hcb : cb s.invocations
        · apply ih _ d
          simp [timerStep, hs, hcb]
        · right
          apply timerRun_status_of_not_armed
          simp [timerStep, hs, hcb, closureRef]

theorem timerRun_loop_resolutions (cb : Nat → Bool) :
    ∀ (es : List TimerEvent) (s : TimerRun),
      (timerRun cb s es).loop = s.loop ∧ (timerRun cb s es).resolutions = s.resolutions ∧
      (s.firedOn = List.replicate s.invocations s.loop →
        (timerRun cb s es).firedOn = List.replicate (timerRun cb s es).invocations s.loop) := by
  intro es
  induction es with
  | nil => intro s; exact ⟨rfl, rfl, fun h => h⟩
  | cons e es ih =>
    intro s
    rw [timerRun_cons]
    have hstep : (timerStep cb s e).loop = s.loop ∧ (timerStep cb s e).resolutions = s.resolutions ∧
        (s.firedOn = List.replicate s.invocations s.loop →
          (timerStep cb s e).firedOn =
            List.replicate (timerStep cb s e).invocations (timerStep cb s e).loop) := by
      cases e with
      | dropHandle => exact ⟨rfl, rfl, fun h => by simpa [timerStep] using h⟩
      | expire r =>
        cases hst : s.status with
        | armed d =>
          cases r with
          | aborted => simp [timerStep, hst]
          | err m => simp [timerStep, hst]
          | ok =>
            by_cases hcb : cb s.invocations
            · refine ⟨by simp [timerStep, hst, hcb], by simp [timerStep, hst, hcb], fun h => ?_⟩
              simp [timerStep, hst, hcb, h, List.replicate_succ' s.invocations s.loop]
            · refine ⟨by simp [timerStep, hst, hcb], by simp [timerStep, hst, hcb], fun h => ?_⟩
              simp [timerStep, hst, hcb, h, List.replicate_succ' s.invocations s.loop]
        | stopped => simp [timerStep, hst]
        | cancelled => simp [timerStep, hst]
        | raised m => simp [timerStep, hst]
    obtain ⟨g1, g2, g3⟩ := hstep
    obtain ⟨h1, h2, h3⟩ := ih (timerStep cb s e)
    refine ⟨h1.trans g1, h2.trans g2, fun h => ?_⟩
    have hfired := g3 h
    have := h3 hfired
    rw [g1] at this
    exact this

theorem armedMs_eq_none_of_not_armed (s : TimerRun) (h : closureRef s = false) :
    armedMs s = none := by
  cases hst : s.status with
  | armed d => simp [closureRef, hst] at h
  | stopped => simp [armedMs, hst]
  | cancelled => simp [armedMs, hst]
  | raised m => simp [armedMs, hst]

/-- C1: for every delay `D` and a callback returning `true` on its first `N`
invocations and `false` on invocation `N + 1`, the scheduled timer invokes the
callback exactly `N + 1` times: after each of the first `j ≤ N` successful
expiries the timer is again armed for the same delay `D`, and after the
invocation that returns `false` the timer is not rearmed and the protocol
terminates (`stopped`).  A void / non-boolean callable is the case `N = 0`
(`make_bool_functor` yields constant `false`): a single invocation. -/
theorem timer_callback_true_n_times_fires_n_succ (N L : Nat) (D : Int) (j : Nat) :
    (timerRun (fun n => decide (n < N)) (scheduleInit L D)
        (List.replicate (N + 1) (.expire .ok))).invocations = N + 1 ∧
    (timerRun (fun n => decide (n < N)) (scheduleInit L D)
        (List.replicate (N + 1) (.expire .ok))).status = .stopped ∧
    (timerRun (fun n => decide (n < N)) (scheduleInit L D)
        (List.replicate j (.expire .ok))).status =
      (if j ≤ N then .armed D else .stopped) ∧
    (timerRun (fun n => decide (n < N)) (scheduleInit L D)
        (List.replicate j (.expire .ok))).invocations = min j (N + 1) := by
  have h0 : scheduleInit L D = (⟨0, .armed D, L, 1, true, List.replicate 0 L⟩ : TimerRun) := rfl
  rw [h0, timerRun_ok_run N L D (N + 1) 0 (Nat.zero_le N),
    timerRun_ok_run N L D j 0 (Nat.zero_le N)]
  refine ⟨?_, ?_, ?_, ?_⟩
  · show min (0 + (N + 1)) (N + 1) = N + 1
    omega
  · show (if 0 + (N + 1) ≤ N then TimerStatus.armed D else .stopped) = .stopped
    rw [if_neg (by omega)]
  · show (if 0 + j ≤ N then TimerStatus.armed D else .stopped) = _
    rw [Nat.zero_add]
  · show min (0 + j) (N + 1) = min j (N + 1)
    omega

/-- C2 counterexample: dropping the returned `TimerPtr` before the first
expiry does NOT cancel the timer and does NOT prevent the callback from
running.  The `async_wait` handler closure captures the `shared_ptr` `timer`
by value (ThreadPool.hpp line 134), so after the drop the timer object is
still owned by the pending wait (use count 1 — the destructor, the only
drop-triggered cancellation path, cannot run): the wait stays armed, the next
expiry completes successfully, and the callback is invoked once (here with a
callback returning `false`), not the zero times the claim requires. -/
theorem drop_handle_then_expiry_invokes_cex :
    (timerRun (fun _ => false) (scheduleInit 0 100000000)
        [.dropHandle, .expire .ok]).invocations = 1 ∧
    (timerRun (fun _ => false) (scheduleInit 0 100000000)
        [.dropHandle, .expire .ok]).status = .stopped ∧
    useCount (timerRun (fun _ => false) (scheduleInit 0 100000000)
        [.dropHandle]) = 1 := by
  exact ⟨rfl, rfl, rfl⟩

/-- C2 amended: dropping the returned handle while a wait is pending does not
cancel the underlying deadline timer: the wait-handler closure's value-captured
`shared_ptr` keeps the timer alive (use count stays 1 after the drop), the
wait remains armed for the same delay, and a subsequent successful expiry
still invokes the user callback. -/
theorem drop_handle_keeps_wait_armed (cb : Nat → Bool) (s : TimerRun) (d : Int)
    (hs : s.status = .armed d) :
    (timerStep cb s .dropHandle).status = .armed d ∧
    useCount (timerStep cb s .dropHandle) = 1 ∧
    (timerRun cb s [.dropHandle, .expire .ok]).invocations = s.invocations + 1 := by
  refine ⟨by simpa [timerStep] using hs, ?_, ?_⟩
  · simp [timerStep, useCount, closureRef, hs]
  · by_cases hcb : cb s.invocations <;>
      simp [timerRun, timerStep, hs, hcb]

theorem drop_handle_keeps_wait_armed_witness :
    (timerStep (fun _ => true) (scheduleInit 2 5) .dropHandle).status = .armed 5 ∧
    useCount (timerStep (fun _ => true) (scheduleInit 2 5) .dropHandle) = 1 ∧
    (timerRun (fun _ => true) (scheduleInit 2 5)
        [.dropHandle, .expire .ok]).invocations = (scheduleInit 2 5).invocations + 1 :=
  drop_handle_keeps_wait_armed (fun _ => true) (scheduleInit 2 5) 5 rfl

/-- C3: with a wait pending, completion with `operation_aborted` terminates
the protocol silently (`cancelled`) without invoking the callback; completion
with any other error is surfaced out of the handler as a thrown
`runtime_error` carrying the error message (`raised m`) without invoking the
callback; the callback is invoked exactly on a successful (error-free)
completion. -/
theorem wait_error_handling (cb : Nat → Bool) (s : TimerRun) (d : Int) (m : String)
    (hs : s.status = .armed d) :
    ((timerStep cb s (.expire .aborted)).status = .cancelled ∧
      (timerStep cb s (.expire .aborted)).invocations = s.invocations) ∧
    ((timerStep cb s (.expire (.err m))).status = .raised m ∧
      (timerStep cb s (.expire (.err m))).invocations = s.invocations) ∧
    (timerStep cb s (.expire .ok)).invocations = s.invocations + 1 := by
  refine ⟨⟨?_, ?_⟩, ⟨?_, ?_⟩, ?_⟩ <;>
    by_cases hcb : cb s.invocations <;> simp [timerStep, hs, hcb]

theorem wait_error_handling_witness :
    ((timerStep (fun _ => true) (scheduleInit 0 1000000)
        (.expire .aborted)).status = .cancelled ∧
      (timerStep (fun _ => true) (scheduleInit 0 1000000)
        (.expire .aborted)).invocations = (scheduleInit 0 1000000).invocations) ∧
    ((timerStep (fun _ => true) (scheduleInit 0 1000000)
        (.expire (.err "io failure"))).status = .raised "io failure" ∧
      (timerStep (fun _ => true) (scheduleInit 0 1000000)
        (.expire (.err "io failure"))).invocations = (scheduleInit 0 1000000).invocations) ∧
    (timerStep (fun _ => true) (scheduleInit 0 1000000)
        (.expire .ok)).invocations = (scheduleInit 0 1000000).invocations + 1 :=
  wait_error_handling (fun _ => true) (scheduleInit 0 1000000) 1000000 "io failure" rfl

/-- C6: every state reached by a timer scheduled through `schedule` keeps the
loop resolved from the target at `schedule()` time: the deadline timer is
constructed once on `(getService n c t).1`, the resolution count stays at the
single resolution performed by `schedule`, and every callback invocation was
handled on that same loop (`firedOn` is constantly the scheduling-time loop). -/
theorem timer_loop_fixed_at_schedule (n c : Nat) (t : LoopTarget) (dNs : Int)
    (cb : Nat → Bool) (es : List TimerEvent) :
    (timerRun cb (schedule n c t dNs).1 es).loop = (getService n c t).1 ∧
    (timerRun cb (schedule n c t dNs).1 es).resolutions = 1 ∧
    (timerRun cb (schedule n c t dNs).1 es).firedOn =
      List.replicate (timerRun cb (schedule n c t dNs).1 es).invocations
        (getService n c t).1 := by
  obtain ⟨h1, h2, h3⟩ := timerRun_loop_resolutions cb es (schedule n c t dNs).1
  have hl : (schedule n c t dNs).1.loop = (getService n c t).1 := rfl
  have hr : (schedule n c t dNs).1.resolutions = 1 := rfl
  have hf : (schedule n c t dNs).1.firedOn =
      List.replicate (schedule n c t dNs).1.invocations (schedule n c t dNs).1.loop := rfl
  exact ⟨h1.trans hl, h2.trans hr, by rw [h3 hf, hl]⟩

/-- C10: `schedule` arms the timer for
`duration_cast<milliseconds>(delay).count()` milliseconds, truncating toward
zero; a non-negative delay strictly shorter than one millisecond arms a
zero-millisecond deadline; and whenever the protocol rearms, the pending wait
is armed for the very same truncated delay. -/
theorem schedule_delay_truncation (dNs : Int) (L : Nat) (cb : Nat → Bool)
    (es : List TimerEvent) :
    armedMs (scheduleInit L dNs) = some (durationCastMs dNs) ∧
    (0 ≤ dNs → dNs < 1000000 → durationCastMs dNs = 0) ∧
    (armedMs (timerRun cb (scheduleInit L dNs) es) = some (durationCastMs dNs) ∨
      armedMs (timerRun cb (scheduleInit L dNs) es) = none) := by
  refine ⟨rfl, ?_, ?_⟩
  · intro h1 h2
    exact Int.tdiv_eq_zero_of_lt h1 h2
  · rcases timerRun_armed_delay cb es (scheduleInit L dNs) dNs rfl with h | h
    · exact Or.inl (by simp [armedMs, h])
    · exact Or.inr (armedMs_eq_none_of_not_armed _ h)

theorem schedule_delay_truncation_witness :
    armedMs (scheduleInit 3 999999) = some (durationCastMs 999999) ∧
    durationCastMs 999999 = 0 ∧
    (armedMs (timerRun (fun _ => true) (scheduleInit 3 999999) [.expire .ok]) =
        some (durationCastMs 999999) ∨
      armedMs (timerRun (fun _ => true) (scheduleInit 3 999999) [.expire .ok]) = none) :=
  ⟨(schedule_delay_truncation 999999 3 (fun _ => true) [.expire .ok]).1,
    (schedule_delay_truncation 999999 3 (fun _ => true) [.expire .ok]).2.1
      (by decide) (by decide),
    (schedule_delay_truncation 999999 3 (fun _ => true) [.expire .ok]).2.2⟩

theorem postAll_spec (n : Nat) : ∀ (k c : Nat),
    (postAll n k c).1.map Submission.loop = (List.range k).map (fun i => (c + i) % n) ∧
    (postAll n k c).1.map Submission.mech = List.replicate k .viaPost ∧
    (postAll n k c).2 = c + k := by
  intro k
  induction k with
  | zero => intro c; exact ⟨rfl, rfl, rfl⟩
  | succ k ih =>
    intro c
    obtain ⟨h1, h2, h3⟩ := ih (c + 1)
    refine ⟨?_, ?_, ?_⟩
    · show (c % n) :: (postAll n k (c + 1)).1.map Submission.loop = _
      rw [h1, List.range_succ_eq_map, List.map_cons, List.map_map]
      congr 1
      apply List.map_congr_left
      intro a _
      simp only [Function.comp]
      congr 1
      omega
    · show Mechanism.viaPost :: (postAll n k (c + 1)).1.map Submission.mech = _
      rw [h2, List.replicate_succ]
    · show (postAll n k (c + 1)).2 = c + (k + 1)
      rw [h3]
      omega

theorem dispatchAll_eq_postAll_aux (n : Nat) : ∀ (k c : Nat),
    dispatchAll n k c = postAll n k c := by
  intro k
  induction k with
  | zero => intro c; rfl
  | succ k ih =>
    intro c
    show (_ :: (dispatchAll n k (c + 1)).1, (dispatchAll n k (c + 1)).2) = _
    rw [ih (c + 1)]
    rfl

/-- C9: `dispatchAll` is extensionally equal to `postAll` — its body submits
`nb_thread_` copies through `post` with the default `ROUND_ROBIN` target
(ThreadPool.hpp lines 176-183), so every submission it makes carries the
`viaPost` mechanism (deferred to the loop's queue, never run inline), whereas
an actual `dispatch` submission would carry `viaDispatch`. -/
theorem dispatchAll_refines_postAll (n k c : Nat) :
    dispatchAll n k c = postAll n k c ∧
    (dispatchAll n k c).1.map Submission.mech = List.replicate k .viaPost ∧
    (∀ c' t, (dispatch n c' t).1.mech = .viaDispatch) := by
  refine ⟨dispatchAll_eq_postAll_aux n k c, ?_, fun c' t => rfl⟩
  rw [dispatchAll_eq_postAll_aux n k c]
  exact (postAll_spec n k c).2.1

/-- C4 counterexample: `postAll` does not target each worker thread's primary
loop.  With `nb_services = 2`, `nb_thread = 2` and a `start()` assignment
mapping both worker threads to loop `0` (possible under the `Random` placement
policy), the claim demands that loop `0` — driven by `m = 2` threads — receive
exactly `2` copies; but `postAll`'s body posts with the default `ROUND_ROBIN`
target, so loop `0` receives exactly one copy (the other goes to loop `1`). -/
theorem postAll_ignores_primary_loops_cex :
    ((postAll 2 2 0).1.map Submission.loop).count 0 = 1 ∧
    ((List.range 2).filter (fun t => allThreadsOnLoopZero t == 0)).length = 2 := by
  exact ⟨rfl, rfl⟩

/-- C4 amended: `postAll w` submits exactly `nb_thread_` copies of `w`, one
per loop iteration, each resolved at call time through the default
`ROUND_ROBIN` target (consecutive cursor values modulo `nb_services`),
independent of any thread-to-primary-loop assignment; the total number of
copies equals `nb_threads`. -/
theorem postAll_round_robin_copies (n k c : Nat) :
    (postAll n k c).1.length = k ∧
    (postAll n k c).1.map Submission.loop = (List.range k).map (fun i => (c + i) % n) ∧
    (postAll n k c).2 = c + k := by
  obtain ⟨h1, h2, h3⟩ := postAll_spec n k c
  refine ⟨?_, h1, h3⟩
  have hlen := congrArg List.length h1
  simpa using hlen

/-- C7: resolving a loop by a non-negative index through `getService` returns
loop `i mod nb_services`: it never fails, never yields an out-of-range index —
also for `i ≥ nb_services` — and does not touch the round-robin cursor. -/
theorem getService_index_mod (n c i : Nat) (hn : 0 < n) :
    (getService n c (.index i)).1 = i % n ∧
    (getService n c (.index i)).1 < n ∧
    (getService n c (.index i)).2 = c :=
  ⟨rfl, Nat.mod_lt i hn, rfl⟩

theorem getService_index_mod_witness :
    (getService 3 9 (.index 7)).1 = 7 % 3 ∧
    (getService 3 9 (.index 7)).1 < 3 ∧
    (getService 3 9 (.index 7)).2 = 9 :=
  getService_index_mod 3 9 7 (by decide)

theorem length_filter_map (f : Nat → Nat) (p : Nat → Bool) :
    ∀ (l : List Nat), ((l.map f).filter p).length = (l.filter (fun x => p (f x))).length := by
  intro l
  induction l with
  | nil => rfl
  | cons a l ih =>
    simp only [List.map_cons, List.filter_cons]
    by_cases h : p (f a) <;> simp [h, ih]

theorem rrPickCount_add (n c r a b : Nat) :
    rrPickCount n c r (a + b) = rrPickCount n c r a + rrPickCount n (c + a) r b := by
  unfold rrPickCount
  rw [List.range_add, List.filter_append, List.length_append]
  congr 1
  rw [length_filter_map]
  congr 1
  apply List.filter_congr
  intro x _
  rw [Nat.add_assoc]

theorem length_filter_range_eq_one (p : Nat → Bool) :
    ∀ (N : Nat) (j0 : Nat), j0 < N → p j0 = true →
      (∀ j, j < N → p j = true → j = j0) →
      ((List.range N).filter p).length = 1 := by
  intro N
  induction N with
  | zero => intro j0 hj _ _; omega
  | succ N ih =>
    intro j0 hj hp hu
    rw [List.range_succ, List.filter_append, List.length_append]
    by_cases hN : p N = true
    · have hj0N : j0 = N := (hu N (Nat.lt_succ_self N) hN).symm
      have hnil : (List.range N).filter p = [] := by
        rw [List.filter_eq_nil_iff]
        intro a ha hpa
        have haN : a < N := List.mem_range.mp ha
        have : a = j0 := hu a (by omega) hpa
        omega
      rw [hnil]
      simp [hN]
    · have hj0N : j0 ≠ N := fun h => hN (h ▸ hp)
      have h1 : ((List.range N).filter p).length = 1 :=
        ih j0 (by omega) hp (fun j hjN hpj => hu j (by omega) hpj)
      rw [h1]
      simp [hN]

theorem rr_hit (n c r : Nat) (hn : 0 < n) (hr : r < n) :
    (c + (r + n - c % n) % n) % n = r := by
  have hc : c % n < n := Nat.mod_lt _ hn
  set y := r + n - c % n with hy
  have h1 : y % n ≡ y [MOD n] := Nat.mod_modEq y n
  have h2 : c + y % n ≡ c + y [MOD n] := Nat.ModEq.add_left c h1
  have h3 : c + y ≡ c % n + y [MOD n] := Nat.ModEq.add_right y (Nat.mod_modEq c n).symm
  have h4 : c % n + y = r + n := by omega
  have h5 : c + y % n ≡ r + n [MOD n] := (h2.trans h3).trans (by rw [h4])
  have h6 : (c + y % n) % n = (r + n) % n := h5
  rw [h6, Nat.add_mod_right, Nat.mod_eq_of_lt hr]

theorem rrPickCount_period (n c r : Nat) (hn : 0 < n) (hr : r < n) :
    rrPickCount n c r n = 1 := by
  unfold rrPickCount
  apply length_filter_range_eq_one _ n ((r + n - c % n) % n) (Nat.mod_lt _ hn)
  · rw [beq_iff_eq]
    exact rr_hit n c r hn hr
  · intro j hjn hpj
    rw [beq_iff_eq] at hpj
    have heq : (c + j) % n = (c + (r + n - c % n) % n) % n := by
      rw [hpj, rr_hit n c r hn hr]
    have hmod : j ≡ (r + n - c % n) % n [MOD n] := Nat.ModEq.add_left_cancel' c heq
    have hj2 : j % n = ((r + n - c % n) % n) % n := hmod
    rw [Nat.mod_eq_of_lt hjn, Nat.mod_eq_of_lt (Nat.mod_lt _ hn)] at hj2
    exact hj2

theorem rrPickCount_zero (n c r : Nat) : rrPickCount n c r 0 = 0 := rfl

theorem rrPickCount_mul_add (n c r : Nat) (hn : 0 < n) (hr : r < n) :
    ∀ (q t : Nat), rrPickCount n c r (n * q + t) = q + rrPickCount n c r t := by
  intro q
  induction q with
  | zero => intro t; simp
  | succ q ih =>
    intro t
    have hsplit : n * (q + 1) + t = (n * q + t) + n := by ring
    rw [hsplit, rrPickCount_add, ih t]
    -- rrPickCount n (c + (n * q + t)) r n = 1
    rw [rrPickCount_period n _ r hn hr]
    omega

theorem rrPickCount_le_one (n c r : Nat) (hn : 0 < n) (hr : r < n) (t : Nat) (ht : t ≤ n) :
    rrPickCount n c r t ≤ 1 := by
  have hsplit := rrPickCount_add n c r t (n - t)
  rw [show t + (n - t) = n from by omega, rrPickCount_period n c r hn hr] at hsplit
  omega

theorem rrPickCount_bounds (n c r k : Nat) (hn : 0 < n) (hr : r < n) :
    k / n ≤ rrPickCount n c r k ∧ rrPickCount n c r k ≤ (k + n - 1) / n := by
  have hk : n * (k / n) + k % n = k := Nat.div_add_mod k n
  have ht : k % n < n := Nat.mod_lt _ hn
  have hS : rrPickCount n c r k = k / n + rrPickCount n c r (k % n) := by
    conv_lhs => rw [← hk]
    exact rrPickCount_mul_add n c r hn hr (k / n) (k % n)
  constructor
  · omega
  · by_cases ht0 : k % n = 0
    · have hceil : (k + n - 1) / n = k / n := by
        rw [show k + n - 1 = (n - 1) + n * (k / n) from by omega,
          Nat.add_mul_div_left _ _ hn, Nat.div_eq_of_lt (by omega)]
        omega
      rw [hceil, hS, ht0, rrPickCount_zero]
      omega
    · have hpart : rrPickCount n c r (k % n) ≤ 1 :=
        rrPickCount_le_one n c r hn hr (k % n) (by omega)
      have h1n : (k % n + n - 1) / n = 1 := Nat.div_eq_of_lt_le (by omega) (by omega)
      have hceil : (k + n - 1) / n = k / n + 1 := by
        rw [show k + n - 1 = (k % n + n - 1) + n * (k / n) from by omega,
          Nat.add_mul_div_left _ _ hn, h1n]
        omega
      omega

theorem count_map_mod (f : Nat → Nat) (r : Nat) : ∀ (l : List Nat),
    (l.map f).count r = (l.filter (fun i => f i == r)).length := by
  intro l
  induction l with
  | nil => rfl
  | cons a l ih =>
    simp only [List.map_cons, List.count_cons, List.filter_cons]
    by_cases h : f a == r <;> simp [h, ih]

theorem rrResolve_spec (n : Nat) : ∀ (k c : Nat),
    (rrResolve n k c).1 = (List.range k).map (fun i => (c + i) % n) ∧
    (rrResolve n k c).2 = c + k := by
  intro k
  induction k with
  | zero => intro c; exact ⟨rfl, rfl⟩
  | succ k ih =>
    intro c
    obtain ⟨h1, h2⟩ := ih (c + 1)
    constructor
    · show (c % n) :: (rrResolve n k (c + 1)).1 = _
      rw [h1, List.range_succ_eq_map, List.map_cons, List.map_map]
      congr 1
      apply List.map_congr_left
      intro a _
      simp only [Function.comp]
      congr 1
      omega
    · show (rrResolve n k (c + 1)).2 = c + (k + 1)
      rw [h2]
      omega

/-- C5: over `k` consecutive `ROUND_ROBIN` resolutions starting from any
cursor value `c0`, every loop index `r < nb_services` is chosen at least
`k / n` (floor) and at most `(k + n - 1) / n` (ceiling) times, and the shared
cursor advances monotonically by exactly one per resolution, ending at
`c0 + k`. -/
theorem round_robin_fairness (n c0 k r : Nat) (hn : 0 < n) (hr : r < n) :
    (k / n ≤ (rrResolve n k c0).1.count r ∧
      (rrResolve n k c0).1.count r ≤ (k + n - 1) / n) ∧
    (rrResolve n k c0).2 = c0 + k := by
  obtain ⟨hp, hc⟩ := rrResolve_spec n k c0
  rw [hp, count_map_mod]
  exact ⟨rrPickCount_bounds n c0 r k hn hr, hc⟩

theorem round_robin_fairness_witness :
    (7 / 3 ≤ (rrResolve 3 7 5).1.count 1 ∧ (rrResolve 3 7 5).1.count 1 ≤ (7 + 3 - 1) / 3) ∧
    (rrResolve 3 7 5).2 = 5 + 7 :=
  round_robin_fairness 3 5 7 1 (by decide) (by decide)

end Commonpp
